import Mathlib

/-!
# goclip: bounded clipboard history

A shallow embedding of `history.go`, of the text branch of `runDaemon` and of
`ShowMenu` / `runUI`, with the properties of the history store proved about it.

Conventions of the embedding:

* a Go `string` is a sequence of bytes (`GoString`), so `len` and slicing count bytes;
* a Go `int` is an `Int`;
* the file system is an explicit association list from paths to file contents, and the
  outcome of every system call that can fail is an explicit argument;
* functions of the Go standard library that are not part of the repository
  (`json.MarshalIndent`, `json.Unmarshal`, `filepath.Join`, `strings.TrimSpace`,
  `fmt.Sscanf`) are arguments of the definitions that call them;
* a run-time panic is the result `none`.
-/

namespace Goclip

/-! ## Data model (`history.go`) -/

/-- A Go string: an immutable sequence of bytes. -/
abbrev GoString := List UInt8

/-- The bytes of an ASCII string literal. -/
def lit (s : String) : GoString := s.toList.map (fun c => UInt8.ofNat c.toNat)

/-- Go: `type ItemType string`. -/
abbrev ItemType := GoString

/-- Go: `TypeText ItemType = "text"`. -/
def TypeText : ItemType := lit "text"

/-- Go: `TypeImage ItemType = "image"`. -/
def TypeImage : ItemType := lit "image"

/-- A `time.Time` instant, abstracted to a number of nanoseconds. -/
abbrev Time := Int

/-- Go: `type Item struct`. The field `Type` is spelled `Typ`. -/
structure Item where
  Typ : ItemType
  Content : GoString
  Preview : GoString
  Timestamp : Time
deriving DecidableEq

/-- Go: `type History struct` (the mutex is not modelled: calls are sequential). -/
structure History where
  Items : List Item
  filePath : GoString
  maxItems : Int
deriving DecidableEq

/-! ## File system -/

/-- The files that exist, each with its content. -/
abbrev FS := List (GoString × GoString)

/-- Whether a file exists at the path. -/
def FS.has (fs : FS) (p : GoString) : Bool := fs.any (fun e => e.1 == p)

/-- The content of the file at the path, if it exists. -/
def FS.read (fs : FS) (p : GoString) : Option GoString :=
  (fs.find? (fun e => e.1 == p)).map (fun e => e.2)

/-- The file system without the file at the path. -/
def FS.remove (fs : FS) (p : GoString) : FS := fs.filter (fun e => e.1 != p)

/-- The file system with the file at the path holding exactly the data. -/
def FS.write (fs : FS) (p : GoString) (d : GoString) : FS := (p, d) :: fs.remove p

/-- What a call of `os.WriteFile` does: it succeeds, or it fails and leaves the file
untouched (`residue = none`) or holding some other bytes (`residue = some d`). -/
inductive WriteOutcome where
  | ok
  | fail (residue : Option GoString)
deriving DecidableEq

/-- Outcomes of the system calls made by one call of `Add`. -/
structure Oracle where
  removeOk : Bool
  write : WriteOutcome
deriving DecidableEq

/-- A system call that changes the file system, as `Add` issues it. -/
inductive Op where
  | Remove (path : GoString)
  | WriteFile (path : GoString) (data : GoString)
deriving DecidableEq

/-- The error values `Add` can return. -/
inductive Error where
  | marshal
  | write
deriving DecidableEq

/-- Go: `os.Remove(path)`; a failed removal changes nothing. -/
def osRemove (fs : FS) (path : GoString) (ok : Bool) : FS :=
  if ok then fs.remove path else fs

/-- Go: `os.WriteFile(path, data, 0644)`. -/
def osWriteFile (fs : FS) (path data : GoString) (w : WriteOutcome) : FS × Option Error :=
  match w with
  | WriteOutcome.ok => (fs.write path data, none)
  | WriteOutcome.fail none => (fs, some Error.write)
  | WriteOutcome.fail (some d) => (fs.write path d, some Error.write)

/-- Go: `os.ReadFile(path)`; `readOk = false` is a file that exists but cannot be read. -/
def osReadFile (fs : FS) (path : GoString) (readOk : Bool) : Option GoString :=
  if readOk then fs.read path else none

/-! ## The history store (`history.go`) -/

/-- The state after a call of `Add` that returned: the store, the file system, the
file-system calls that were issued, and the returned error (`none` is Go's `nil`). -/
structure AddResult where
  h : History
  fs : FS
  ops : List Op
  err : Option Error
deriving DecidableEq

/-- Go: `func (h *History) save() error`. `MarshalIndent` is
`json.MarshalIndent(h.Items, "", "  ")`, `none` when it returns an error. -/
def save (MarshalIndent : List Item → Option GoString) (h : History) (fs : FS)
    (w : WriteOutcome) : FS × List Op × Option Error :=
  match MarshalIndent h.Items with
  | none => (fs, [], some Error.marshal)
  | some data =>
    let r := osWriteFile fs h.filePath data w
    (r.1, [Op.WriteFile h.filePath data], r.2)

/-- Go: `func (h *History) Add(item Item) error`. The result is `none` when the call
panics (`h.Items[h.maxItems]` with a negative `maxItems`). -/
def Add (MarshalIndent : List Item → Option GoString) (h : History) (fs : FS)
    (item : Item) (o : Oracle) : Option AddResult :=
  -- Deduplicate: check if the new item is identical to the most recent one.
  let dup : Bool :=
    match h.Items with
    | [] => false
    | last :: _ => last.Typ == item.Typ && last.Content == item.Content
  if dup then
    some { h := h, fs := fs, ops := [], err := none }
  else
    -- Prepend new item
    let items := item :: h.Items
    -- Prune old items
    let pruned : Option (List Item × FS × List Op) :=
      if (items.length : Int) > h.maxItems then
        if h.maxItems < 0 then none
        else
          match items.get? h.maxItems.toNat with
          | none => none
          | some removed =>
            if removed.Typ = TypeImage then
              some (items.take h.maxItems.toNat,
                    osRemove fs removed.Content o.removeOk, [Op.Remove removed.Content])
            else
              some (items.take h.maxItems.toNat, fs, [])
      else some (items, fs, [])
    match pruned with
    | none => none
    | some (items1, fs1, ops1) =>
      let h1 : History := { h with Items := items1 }
      let s := save MarshalIndent h1 fs1 o.write
      some { h := h1, fs := s.1, ops := ops1 ++ s.2.1, err := s.2.2 }

/-- Go: `func (h *History) GetItems() []Item`, a copy of the sequence. -/
def GetItems (h : History) : List Item := h.Items

/-- Go: `func (h *History) load()`. `Unmarshal data items` is
`json.Unmarshal(data, &h.Items)` started on a target holding `items`: the value it leaves
in the target and whether it returned an error. The error is discarded, as in the source. -/
def load (Unmarshal : GoString → List Item → List Item × Bool) (h : History) (fs : FS)
    (readOk : Bool) : History :=
  match osReadFile fs h.filePath readOk with
  | none => h
  | some data => { h with Items := (Unmarshal data h.Items).1 }

/-- The errors `NewHistory` can return. -/
inductive SetupError where
  | configDir
  | appDir
deriving DecidableEq

/-- The environment `NewHistory` runs in: the result of `os.UserConfigDir()`, whether
`os.MkdirAll` succeeds, and whether the history file can be read. -/
structure Env where
  UserConfigDir : Option GoString
  mkdirOk : Bool
  readOk : Bool

/-- Go: `func NewHistory(maxItems int) (*History, error)`. -/
def NewHistory (Join : GoString → GoString → GoString)
    (Unmarshal : GoString → List Item → List Item × Bool)
    (env : Env) (fs : FS) (maxItems : Int) : Except SetupError History :=
  match env.UserConfigDir with
  | none => Except.error SetupError.configDir
  | some configDir =>
    let appDir := Join configDir (lit "goclip")
    if env.mkdirOk then
      let h : History :=
        { Items := [], filePath := Join appDir (lit "history.json"), maxItems := maxItems }
      Except.ok (load Unmarshal h fs env.readOk)
    else Except.error SetupError.appDir

/-- A sequence of `Add` calls, each with the outcomes of its system calls: the final
store and file system and the value every call returned, or `none` if a call panicked. -/
def runAdds (MarshalIndent : List Item → Option GoString) :
    History → FS → List (Item × Oracle) → Option (History × FS × List (Option Error))
  | h, fs, [] => some (h, fs, [])
  | h, fs, c :: rest =>
    match Add MarshalIndent h fs c.1 c.2 with
    | none => none
    | some r =>
      match runAdds MarshalIndent r.h r.fs rest with
      | none => none
      | some (h2, fs2, errs) => some (h2, fs2, r.err :: errs)

/-! ## The capture loop (`main.go`) -/

/-- Go: `MaxHistoryItems = 20`. -/
def MaxHistoryItems : Int := 20

/-- Go: `PreviewLength = 60`. -/
def PreviewLength : Nat := 60

/-- Go: `strings.ReplaceAll(s, old, new)` for one-byte `old` and `new`. -/
def ReplaceAll (s : GoString) (old new : UInt8) : GoString :=
  s.map (fun b => if b = old then new else b)

/-- The text branch of the `select` in `runDaemon`: the item passed to `h.Add` for a text
payload received at time `now`, or `none` when the payload is skipped (`continue`).
`TrimSpace` is `strings.TrimSpace`. -/
def textItem (TrimSpace : GoString → GoString) (data : GoString) (now : Time) :
    Option Item :=
  let content := data
  if TrimSpace content = [] then none
  else
    -- Generate Preview
    let preview := ReplaceAll content 10 32
    let preview :=
      if preview.length > PreviewLength then preview.take PreviewLength ++ lit "..."
      else preview
    some { Typ := TypeText, Content := content, Preview := preview, Timestamp := now }

/-! ## The selection flow (`ui.go`, `runUI`) -/

/-- Go: `type UIHandler struct`. -/
structure UIHandler where
  ThemePath : GoString

/-- The text `ShowMenu` writes to the standard input of rofi. -/
def rofiInput : List Item → GoString
  | [] => []
  | item :: rest =>
    item.Preview
      ++ (if item.Typ = TypeImage then lit "\x00icon\x1f" ++ item.Content else [])
      ++ lit "\n" ++ rofiInput rest

/-- The command line `ShowMenu` passes to rofi. -/
def rofiArgs (u : UIHandler) : List GoString :=
  [lit "-dmenu", lit "-i", lit "-p", lit "Clipboard", lit "-format", lit "i",
   lit "-show-icons", lit "-mesg", lit "<b>Historial</b>"]
    ++ (if u.ThemePath ≠ [] then [lit "-theme", u.ThemePath] else [])

/-- Go: `func (u *UIHandler) ShowMenu(items []Item) (int, bool)`. `run args stdin` is
`exec.Command("rofi", args...)` run on that input: its output, or `none` when
`cmd.Output()` returns an error. `Sscanf s` is `fmt.Sscanf(s, "%d", &index)` on a zero
`index`: the value it leaves in `index` and whether it returned an error. -/
def ShowMenu (TrimSpace : GoString → GoString) (Sscanf : GoString → Int × Bool)
    (run : List GoString → GoString → Option GoString) (u : UIHandler)
    (items : List Item) : Int × Bool :=
  if items.length = 0 then (0, false)
  else
    match run (rofiArgs u) (rofiInput items) with
    | none => (0, false)
    | some output =>
      let indexStr := TrimSpace output
      let r := Sscanf indexStr
      let index := r.1
      let err := r.2
      if err || index < 0 || index ≥ (items.length : Int) then (0, false)
      else (index, true)

/-- Go: `func runUI(h *History)`. The result is the item handed to `ui.PasteItem`, if
any; `none` is a panic (`items[index]` out of range). -/
def runUI (TrimSpace : GoString → GoString) (Sscanf : GoString → Int × Bool)
    (run : List GoString → GoString → Option GoString) (u : UIHandler)
    (h : History) : Option (Option Item) :=
  let items := GetItems h
  if items.length = 0 then some none
  else
    let r := ShowMenu TrimSpace Sscanf run u items
    let index := r.1
    let selected := r.2
    if !selected then some none
    else if index < 0 then none
    else
      match items.get? index.toNat with
      | none => none
      | some item => some (some item)

/-! ## Auxiliary notions used in the statements -/

/-- The new item has the Type and the Content of the current first item. -/
def isDuplicate (items : List Item) (item : Item) : Bool :=
  match items with
  | [] => false
  | last :: _ => last.Typ == item.Typ && last.Content == item.Content

/-- The sequence `Add` leaves in memory when it inserts: the item in front of the old
sequence, cut to the first `maxItems` entries. -/
def inserted (h : History) (item : Item) : List Item :=
  (item :: h.Items).take h.maxItems.toNat

/-- The file system after the cleanup step of an inserting `Add`, before `save`. -/
def cleaned (h : History) (fs : FS) (item : Item) (o : Oracle) : FS :=
  match (item :: h.Items).get? h.maxItems.toNat with
  | none => fs
  | some removed =>
    if removed.Typ = TypeImage then osRemove fs removed.Content o.removeOk else fs

/-- No two neighbours of the sequence have both the same Type and the same Content. -/
def NoAdjacentDup (items : List Item) : Prop :=
  List.Chain' (fun a b => ¬ (a.Typ = b.Typ ∧ a.Content = b.Content)) items

/-- The durable file holds the serialization of the in-memory sequence. -/
def InSync (MarshalIndent : List Item → Option GoString) (h : History) (fs : FS) : Prop :=
  ∃ data, MarshalIndent h.Items = some data ∧ fs.read h.filePath = some data

/-- The sequence in memory after `Add(item)` on a store holding `items` with limit `n`. -/
def nextItems (n : Int) (items : List Item) (item : Item) : List Item :=
  if isDuplicate items item then items else (item :: items).take n.toNat

/-! ## Concrete values used in the examples -/

/-- A text item whose preview is its content. -/
def textOf (s : String) (t : Time) : Item :=
  { Typ := TypeText, Content := lit s, Preview := lit s, Timestamp := t }

/-- An image item stored at the given path. -/
def imageOf (path : String) (t : Time) : Item :=
  { Typ := TypeImage, Content := lit path, Preview := lit "[Image] " ++ lit path, Timestamp := t }

/-- A serializer for the examples: one line per item, Type and Content. -/
def lineMarshal (items : List Item) : Option GoString :=
  some (items.flatMap (fun i => i.Typ ++ lit " " ++ i.Content ++ lit "\n"))

/-- A serializer for the examples that always fails. -/
def failMarshal (_ : List Item) : Option GoString := none

/-- The path of the history file in the examples. -/
def histPath : GoString := lit "/cfg/goclip/history.json"

/-- All system calls succeed. -/
def allOk : Oracle := { removeOk := true, write := WriteOutcome.ok }

/-- The durable write fails and leaves the file as it was. -/
def writeFails : Oracle := { removeOk := true, write := WriteOutcome.fail none }

/-- The path join of the examples: the two parts with a slash between them. -/
def slashJoin (a b : GoString) : GoString := a ++ lit "/" ++ b

/-- A decoder for the examples, given by a finite table: for each listed document, the
value `json.Unmarshal` leaves in an empty target and whether it reports an error. A
document that is not listed is treated as a syntax error (target untouched). -/
def tableUnmarshal (table : List (GoString × List Item × Bool)) (data : GoString)
    (target : List Item) : List Item × Bool :=
  match table.find? (fun e => e.1 == data) with
  | some e => e.2
  | none => (target, true)

/-- The environment of the examples: the config directory is `/cfg` and every call
succeeds. -/
def cfgEnv : Env := { UserConfigDir := some (lit "/cfg"), mkdirOk := true, readOk := true }

/-- The store of the examples holding `b` then `a`, with the given limit. -/
def storeBA (maxItems : Int) : History :=
  { Items := [textOf "b" 1, textOf "a" 0], filePath := histPath, maxItems := maxItems }

/-- The empty store of the examples. -/
def emptyStore (maxItems : Int) : History :=
  { Items := [], filePath := histPath, maxItems := maxItems }

/-- The path of the image file in the examples. -/
def imgPath : String := "/cfg/goclip/images/img_1.png"

/-- The text `lineMarshal` writes for `b` then `a`. -/
def docBA : GoString := lit "text b\ntext a\n"

/-- A store as loaded from a file written under a larger limit: a text item and an older
image item, under `maxItems = 1`. -/
def longStore : History :=
  { Items := [textOf "a" 1, imageOf imgPath 0], filePath := histPath, maxItems := 1 }

/-- The file system that goes with `longStore`: the history file and the image file. -/
def longFS : FS := [(histPath, lit "text a\nimage /cfg/goclip/images/img_1.png\n"),
                    (lit imgPath, lit "PNG")]

/-- Whether the call is a removal. -/
def Op.isRemove : Op → Bool
  | Op.Remove _ => true
  | Op.WriteFile _ _ => false

/-- The zero value of `Item`. -/
def zeroItem : Item := { Typ := [], Content := [], Preview := [], Timestamp := 0 }

/-- What `encoding/json` does on the document `[1]` with the target `[]Item`: the array
element is a number, not an object, so the slice is grown by one zero `Item`, decoding goes
on, and an `UnmarshalTypeError` is returned at the end. -/
def arrayOfNumber : List (GoString × List Item × Bool) := [(lit "[1]", [zeroItem], true)]

/-- Whether the byte is ASCII white space (tab, line feed, vertical tab, form feed,
carriage return, space). -/
def isAsciiSpace (b : UInt8) : Bool :=
  b == 9 || b == 10 || b == 11 || b == 12 || b == 13 || b == 32

/-- What `strings.TrimSpace` does on ASCII input: leading and trailing white space is
dropped. -/
def asciiTrimSpace (s : GoString) : GoString :=
  ((s.dropWhile isAsciiSpace).reverse.dropWhile isAsciiSpace).reverse

/-- What `fmt.Sscanf(s, "%d", &index)` does on a string of one decimal digit; any other
string is reported as an error. -/
def digitSscanf (s : GoString) : Int × Bool :=
  match s with
  | [d] => if 48 ≤ d.toNat ∧ d.toNat ≤ 57 then ((d.toNat : Int) - 48, false) else (0, true)
  | _ => (0, true)

/-- A presentation program that always prints the given text. -/
def printsAlways (out : String) (_ : List GoString) (_ : GoString) : Option GoString :=
  some (lit out)

/-- A text payload of 62 bytes: `a`, a newline, and sixty letters `b`. -/
def longText : GoString := lit "a\n" ++ List.replicate 60 98

/-- The item the capture loop builds for `longText` at time 7: the Preview is the first
sixty bytes of the flattened text (`a`, a space, 58 letters `b`) and the marker. -/
def longTextItem : Item :=
  { Typ := TypeText, Content := longText,
    Preview := lit "a " ++ List.replicate 58 98 ++ lit "...", Timestamp := 7 }

/-- The file system in which the history file holds what `lineMarshal` writes for
`storeBA`. -/
def fsBA : FS := [(histPath, docBA)]

/-! ## Lemmas about the file system -/

theorem FS.read_write (fs : FS) (p d : GoString) : (fs.write p d).read p = some d := by
  simp [FS.write, FS.read]

theorem FS.has_remove (fs : FS) (p : GoString) : (fs.remove p).has p = false := by
  simp [FS.remove, FS.has]

/-! ## Lemmas about `Add` -/

theorem Add_of_dup (M : List Item → Option GoString) (h : History) (fs : FS) (item : Item)
    (o : Oracle) (hd : isDuplicate h.Items item = true) :
    Add M h fs item o = some { h := h, fs := fs, ops := [], err := none } := by
  unfold Add
  unfold isDuplicate at hd
  simp only [hd, if_true]

theorem Add_of_not_dup (M : List Item → Option GoString) (h : History) (fs : FS)
    (item : Item) (o : Oracle) (h0 : 0 ≤ h.maxItems)
    (hd : isDuplicate h.Items item = false) :
    ∃ ops1, Add M h fs item o =
      some { h := { h with Items := inserted h item }
             fs := (save M { h with Items := inserted h item } (cleaned h fs item o) o.write).1
             ops := ops1 ++
               (save M { h with Items := inserted h item } (cleaned h fs item o) o.write).2.1
             err :=
               (save M { h with Items := inserted h item } (cleaned h fs item o) o.write).2.2 } := by
  unfold Add
  unfold isDuplicate at hd
  simp only [hd, Bool.false_eq_true, if_false]
  by_cases hlen : ((item :: h.Items).length : Int) > h.maxItems
  · have hlt : h.maxItems.toNat < (item :: h.Items).length := by omega
    have hneg : ¬ h.maxItems < 0 := by omega
    obtain ⟨removed, hrem⟩ : ∃ r, (item :: h.Items).get? h.maxItems.toNat = some r :=
      ⟨_, List.get?_eq_get hlt⟩
    by_cases himg : removed.Typ = TypeImage
    · refine ⟨[Op.Remove removed.Content], ?_⟩
      simp only [hlen, hneg, hrem, himg, if_true, if_false, inserted, cleaned]
    · refine ⟨[], ?_⟩
      simp only [hlen, hneg, hrem, himg, if_true, if_false, inserted, cleaned]
  · have hle : (item :: h.Items).length ≤ h.maxItems.toNat := by omega
    have hnone : (item :: h.Items).get? h.maxItems.toNat = none := List.get?_eq_none.mpr hle
    refine ⟨[], ?_⟩
    simp only [hlen, if_false, inserted, cleaned, hnone, List.take_of_length_le hle]

theorem isDuplicate_false_of_differs (items : List Item) (item : Item)
    (hne : ∀ last rest, items = last :: rest →
      last.Typ ≠ item.Typ ∨ last.Content ≠ item.Content) :
    isDuplicate items item = false := by
  cases items with
  | nil => rfl
  | cons last rest =>
    rcases hne last rest rfl with h1 | h1 <;> simp [isDuplicate, h1]

theorem isDuplicate_true_of_same (last : Item) (rest : List Item) (item : Item)
    (hT : last.Typ = item.Typ) (hC : last.Content = item.Content) :
    isDuplicate (last :: rest) item = true := by
  simp [isDuplicate, hT, hC]

theorem Add_items (M : List Item → Option GoString) (h : History) (fs : FS) (item : Item)
    (o : Oracle) (h0 : 0 ≤ h.maxItems) :
    ∃ r, Add M h fs item o = some r ∧
      r.h = { h with Items := nextItems h.maxItems h.Items item } := by
  cases hd : isDuplicate h.Items item with
  | true =>
    exact ⟨_, Add_of_dup M h fs item o hd, by simp [nextItems, hd]⟩
  | false =>
    obtain ⟨ops1, hadd⟩ := Add_of_not_dup M h fs item o h0 hd
    exact ⟨_, hadd, by simp [nextItems, hd, inserted]⟩

theorem runAdds_items (M : List Item → Option GoString) (calls : List (Item × Oracle)) :
    ∀ (h : History) (fs : FS), 0 ≤ h.maxItems →
      ∃ fs2 errs, runAdds M h fs calls =
        some ({ h with Items := calls.foldl (fun acc c => nextItems h.maxItems acc c.1) h.Items },
              fs2, errs) := by
  induction calls with
  | nil => intro h fs _; exact ⟨fs, [], rfl⟩
  | cons c rest ih =>
    intro h fs h0
    obtain ⟨r, hadd, hr⟩ := Add_items M h fs c.1 c.2 h0
    have h0r : 0 ≤ r.h.maxItems := by rw [hr]; exact h0
    obtain ⟨fs2, errs, hrun⟩ := ih r.h r.fs h0r
    simp only [hr] at hrun
    refine ⟨fs2, r.err :: errs, ?_⟩
    simp only [runAdds, hadd, hr, hrun, List.foldl_cons]

theorem isDuplicate_iff (items : List Item) (item : Item) :
    isDuplicate items item = true ↔
      ∃ last rest, items = last :: rest ∧ last.Typ = item.Typ ∧ last.Content = item.Content := by
  cases items with
  | nil => simp [isDuplicate]
  | cons last rest => simp [isDuplicate]

theorem save_err_eq_none_iff (M : List Item → Option GoString) (h : History) (fs : FS)
    (w : WriteOutcome) :
    (save M h fs w).2.2 = none ↔ M h.Items ≠ none ∧ w = WriteOutcome.ok := by
  unfold save
  cases hm : M h.Items with
  | none => simp
  | some data =>
    cases w with
    | ok => simp [osWriteFile]
    | fail residue => cases residue <;> simp [osWriteFile]

theorem save_inSync (M : List Item → Option GoString) (h : History) (fs : FS)
    (w : WriteOutcome) (hok : (save M h fs w).2.2 = none) :
    InSync M h (save M h fs w).1 := by
  obtain ⟨hm, hw⟩ := (save_err_eq_none_iff M h fs w).mp hok
  obtain ⟨data, hdata⟩ := Option.ne_none_iff_exists'.mp hm
  refine ⟨data, hdata, ?_⟩
  subst hw
  simp only [save, hdata, osWriteFile]
  exact FS.read_write fs h.filePath data

theorem nextItems_length_le (n : Int) (items : List Item) (item : Item) (h0 : 0 ≤ n)
    (hlen : (items.length : Int) ≤ n) : ((nextItems n items item).length : Int) ≤ n := by
  unfold nextItems
  split
  · exact hlen
  · have : ((item :: items).take n.toNat).length ≤ n.toNat := List.length_take_le _ _
    omega

theorem foldl_nextItems_length_le (n : Int) (h0 : 0 ≤ n) (calls : List (Item × Oracle)) :
    ∀ items : List Item, (items.length : Int) ≤ n →
      (((calls.foldl (fun acc c => nextItems n acc c.1) items).length : Int) ≤ n) := by
  induction calls with
  | nil => intro items hlen; exact hlen
  | cons c rest ih =>
    intro items hlen
    exact ih _ (nextItems_length_le n items c.1 h0 hlen)

theorem nextItems_noAdjacentDup (n : Int) (items : List Item) (item : Item)
    (hinv : NoAdjacentDup items) : NoAdjacentDup (nextItems n items item) := by
  unfold nextItems
  cases hd : isDuplicate items item with
  | true => simpa using hinv
  | false =>
    simp only [Bool.false_eq_true, if_false]
    apply List.Chain'.take
    cases items with
    | nil => exact List.chain'_singleton item
    | cons last rest =>
      refine List.Chain'.cons ?_ hinv
      intro hsame
      have : isDuplicate (last :: rest) item = true :=
        isDuplicate_true_of_same last rest item hsame.1.symm hsame.2.symm
      rw [hd] at this
      exact Bool.false_ne_true this

theorem foldl_nextItems_noAdjacentDup (n : Int) (calls : List (Item × Oracle)) :
    ∀ items : List Item, NoAdjacentDup items →
      NoAdjacentDup (calls.foldl (fun acc c => nextItems n acc c.1) items) := by
  induction calls with
  | nil => intro items hinv; exact hinv
  | cons c rest ih =>
    intro items hinv
    exact ih _ (nextItems_noAdjacentDup n items c.1 hinv)

theorem FS.has_remove_of_ne (fs : FS) (p q : GoString) (hne : q ≠ p) :
    (fs.remove q).has p = fs.has p := by
  induction fs with
  | nil => rfl
  | cons e rest ih =>
    unfold FS.remove FS.has at *
    rw [List.filter_cons]
    split
    · rw [List.any_cons, List.any_cons, ih]
    · rename_i hc
      have heq : e.1 = q := by simpa using hc
      have hfalse : (e.1 == p) = false := by
        rw [heq]; simpa using hne
      rw [List.any_cons, ih, hfalse, Bool.false_or]

theorem FS.has_write_of_ne (fs : FS) (p q d : GoString) (hne : q ≠ p) :
    (fs.write q d).has p = fs.has p := by
  have hfalse : (q == p) = false := by simpa using hne
  have hcons : (fs.write q d).has p = ((q == p) || (fs.remove q).has p) := by
    simp only [FS.write, FS.has, List.any_cons]
  rw [hcons, hfalse, Bool.false_or, FS.has_remove_of_ne fs p q hne]

theorem save_has_of_ne (M : List Item → Option GoString) (h : History) (fs : FS)
    (w : WriteOutcome) (p : GoString) (hne : h.filePath ≠ p) :
    (save M h fs w).1.has p = fs.has p := by
  unfold save
  cases M h.Items with
  | none => rfl
  | some data =>
    cases w with
    | ok => exact FS.has_write_of_ne fs p h.filePath data hne
    | fail residue =>
      cases residue with
      | none => rfl
      | some d => exact FS.has_write_of_ne fs p h.filePath d hne

/-- Where the cleanup step of `Add` does apply: when the entry at index `maxItems` of the
item followed by the old sequence is an image, its removal succeeds and its path is not
the path of the history file, that path no longer exists after the call. -/
theorem Add_removes_image_at_limit (M : List Item → Option GoString) (h : History) (fs : FS)
    (item removed : Item) (o : Oracle) (h0 : 0 ≤ h.maxItems)
    (hd : isDuplicate h.Items item = false)
    (hget : (item :: h.Items).get? h.maxItems.toNat = some removed)
    (himg : removed.Typ = TypeImage) (hok : o.removeOk = true)
    (hp : h.filePath ≠ removed.Content) :
    ∃ r, Add M h fs item o = some r ∧ r.fs.has removed.Content = false := by
  obtain ⟨ops1, hadd⟩ := Add_of_not_dup M h fs item o h0 hd
  refine ⟨_, hadd, ?_⟩
  have hfp : ({ h with Items := inserted h item } : History).filePath ≠ removed.Content := hp
  rw [save_has_of_ne M _ _ _ _ hfp]
  simp only [cleaned, hget, himg, if_true, osRemove, hok]
  exact FS.has_remove fs removed.Content

/-! ## Lemmas about the preview -/

theorem ReplaceAll_length (s : GoString) (old new : UInt8) :
    (ReplaceAll s old new).length = s.length := by
  simp [ReplaceAll]

theorem newline_not_mem_ReplaceAll (s : GoString) : (10 : UInt8) ∉ ReplaceAll s 10 32 := by
  intro hmem
  obtain ⟨b, _, hb⟩ := List.mem_map.mp hmem
  by_cases h10 : b = 10
  · rw [if_pos h10] at hb
    exact absurd hb (by decide)
  · rw [if_neg h10] at hb
    exact h10 hb

/-! ## Lemmas about `ShowMenu` -/

theorem ShowMenu_eq_of_output (T : GoString → GoString) (S : GoString → Int × Bool)
    (run : List GoString → GoString → Option GoString) (u : UIHandler) (items : List Item)
    (output : GoString) (hne : items.length ≠ 0)
    (hrun : run (rofiArgs u) (rofiInput items) = some output) :
    ShowMenu T S run u items =
      if ((S (T output)).2 || decide ((S (T output)).1 < 0)
          || decide ((S (T output)).1 ≥ (items.length : Int))) = true
      then (0, false) else ((S (T output)).1, true) := by
  unfold ShowMenu
  simp only [hne, if_false, hrun]

theorem ShowMenu_in_range (T : GoString → GoString) (S : GoString → Int × Bool)
    (run : List GoString → GoString → Option GoString) (u : UIHandler) (items : List Item)
    (index : Int) (hsel : ShowMenu T S run u items = (index, true)) :
    0 ≤ index ∧ index < (items.length : Int) := by
  by_cases hne : items.length = 0
  · simp [ShowMenu, hne] at hsel
  · cases hrun : run (rofiArgs u) (rofiInput items) with
    | none => simp [ShowMenu, hne, hrun] at hsel
    | some output =>
      rw [ShowMenu_eq_of_output T S run u items output hne hrun] at hsel
      split at hsel
      · simp at hsel
      · rename_i hcond
        simp only [Bool.or_eq_true, decide_eq_true_eq, not_or, not_lt, ge_iff_le, not_le]
          at hcond
        have hidx : (S (T output)).1 = index := (Prod.mk.inj hsel).1
        rw [← hidx]
        exact ⟨hcond.1.2, hcond.2⟩

/-! ## Lemmas about `load` -/

theorem load_filePath (U : GoString → List Item → List Item × Bool) (h : History) (fs : FS)
    (readOk : Bool) : (load U h fs readOk).filePath = h.filePath := by
  unfold load; split <;> rfl

theorem load_maxItems (U : GoString → List Item → List Item × Bool) (h : History) (fs : FS)
    (readOk : Bool) : (load U h fs readOk).maxItems = h.maxItems := by
  unfold load; split <;> rfl

theorem load_items_of_unreadable (U : GoString → List Item → List Item × Bool) (h : History)
    (fs : FS) (readOk : Bool) (hnone : osReadFile fs h.filePath readOk = none) :
    GetItems (load U h fs readOk) = h.Items := by
  simp only [load, hnone, GetItems]

theorem load_items_of_readable (U : GoString → List Item → List Item × Bool) (h : History)
    (fs : FS) (readOk : Bool) (data : GoString)
    (hsome : osReadFile fs h.filePath readOk = some data) :
    GetItems (load U h fs readOk) = (U data h.Items).1 := by
  simp only [load, hsome, GetItems]

/-! ## Lemmas about runs -/

theorem Add_inSync_of_ok (M : List Item → Option GoString) (h : History) (fs : FS)
    (item : Item) (o : Oracle) (r : AddResult) (h0 : 0 ≤ h.maxItems)
    (hadd : Add M h fs item o = some r) (herr : r.err = none) (hsync : InSync M h fs) :
    InSync M r.h r.fs := by
  cases hd : isDuplicate h.Items item with
  | true =>
    rw [Add_of_dup M h fs item o hd] at hadd
    cases hadd
    exact hsync
  | false =>
    obtain ⟨ops1, hadd2⟩ := Add_of_not_dup M h fs item o h0 hd
    rw [hadd2] at hadd
    cases hadd
    exact save_inSync M _ _ _ herr

theorem Add_maxItems (M : List Item → Option GoString) (h : History) (fs : FS)
    (item : Item) (o : Oracle) (r : AddResult) (h0 : 0 ≤ h.maxItems)
    (hadd : Add M h fs item o = some r) : r.h.maxItems = h.maxItems := by
  obtain ⟨r2, hadd2, hr2⟩ := Add_items M h fs item o h0
  rw [hadd2] at hadd
  cases hadd
  rw [hr2]

theorem runAdds_inSync (M : List Item → Option GoString) (calls : List (Item × Oracle)) :
    ∀ (h : History) (fs : FS) (h1 : History) (fs1 : FS) (errs : List (Option Error)),
      0 ≤ h.maxItems → runAdds M h fs calls = some (h1, fs1, errs) →
      (∀ e ∈ errs, e = none) → InSync M h fs → InSync M h1 fs1 := by
  induction calls with
  | nil =>
    intro h fs h1 fs1 errs _ hrun _ hsync
    simp only [runAdds, Option.some.injEq, Prod.mk.injEq] at hrun
    obtain ⟨hh, hf, _⟩ := hrun
    rw [← hh, ← hf]
    exact hsync
  | cons c rest ih =>
    intro h fs h1 fs1 errs h0 hrun hall hsync
    obtain ⟨r, hadd, _⟩ := Add_items M h fs c.1 c.2 h0
    have hmax := Add_maxItems M h fs c.1 c.2 r h0 hadd
    obtain ⟨fs2, errs2, hrest⟩ := runAdds_items M rest r.h r.fs (by rw [hmax]; exact h0)
    simp only [runAdds, hadd, hrest, Option.some.injEq, Prod.mk.injEq] at hrun
    obtain ⟨hh, hf, he⟩ := hrun
    have herr : r.err = none := hall r.err (by rw [← he]; exact List.mem_cons_self _ _)
    have hall2 : ∀ e ∈ errs2, e = none := fun e hmem =>
      hall e (by rw [← he]; exact List.mem_cons_of_mem _ hmem)
    have hsync2 := Add_inSync_of_ok M h fs c.1 c.2 r h0 hadd herr hsync
    have := ih r.h r.fs _ fs2 errs2 (by rw [hmax]; exact h0) hrest hall2 hsync2
    rw [← hh, ← hf]
    exact this

theorem runAdds_returns (M : List Item → Option GoString) (calls : List (Item × Oracle))
    (h : History) (fs : FS) (h0 : 0 ≤ h.maxItems) :
    ∃ h1 fs1 errs, runAdds M h fs calls = some (h1, fs1, errs) ∧
      h1.maxItems = h.maxItems := by
  obtain ⟨fs1, errs, hrun⟩ := runAdds_items M calls h fs h0
  exact ⟨_, fs1, errs, hrun, rfl⟩

/-- Where the limit does hold: on a store that starts with at most `maxItems` entries,
every finite sequence of `Add` calls returns and leaves at most `maxItems` entries. -/
theorem length_bounded_of_bounded_start (M : List Item → Option GoString) (h : History)
    (fs : FS) (calls : List (Item × Oracle)) (h0 : 0 ≤ h.maxItems)
    (hlen : (h.Items.length : Int) ≤ h.maxItems) :
    ∃ h2 fs2 errs, runAdds M h fs calls = some (h2, fs2, errs) ∧
      ((GetItems h2).length : Int) ≤ h.maxItems := by
  obtain ⟨fs2, errs, hrun⟩ := runAdds_items M calls h fs h0
  exact ⟨_, fs2, errs, hrun, foldl_nextItems_length_le h.maxItems h0 calls h.Items hlen⟩

/-! ## The claims -/

/-- C2: when the store is non-empty and the item has the Type and the Content of the
current first item, whatever its Preview and Timestamp, `Add` returns nil, leaves the
store exactly as it was, leaves the file system as it was and issues no file-system call
(no write to the durable file); this holds for every `maxItems`. -/
theorem Add_duplicate_is_noop (M : List Item → Option GoString) (h : History) (fs : FS)
    (item : Item) (o : Oracle) (last : Item) (rest : List Item)
    (hItems : h.Items = last :: rest) (hT : last.Typ = item.Typ)
    (hC : last.Content = item.Content) :
    Add M h fs item o = some { h := h, fs := fs, ops := [], err := none } ∧
      GetItems h = last :: rest :=
  ⟨Add_of_dup M h fs item o (by rw [hItems]; exact isDuplicate_true_of_same last rest item hT hC),
   hItems⟩

theorem Add_duplicate_is_noop_witness :
    Add lineMarshal { Items := [textOf "b" 1, textOf "a" 0], filePath := histPath, maxItems := 2 }
        [] { textOf "b" 7 with Preview := lit "other" } writeFails
      = some { h := { Items := [textOf "b" 1, textOf "a" 0], filePath := histPath, maxItems := 2 },
               fs := [], ops := [], err := none } ∧
    GetItems { Items := [textOf "b" 1, textOf "a" 0], filePath := histPath, maxItems := 2 }
      = [textOf "b" 1, textOf "a" 0] :=
  Add_duplicate_is_noop lineMarshal
    { Items := [textOf "b" 1, textOf "a" 0], filePath := histPath, maxItems := 2 } []
    { textOf "b" 7 with Preview := lit "other" } writeFails (textOf "b" 1) [textOf "a" 0]
    rfl rfl rfl

/-- C3: for `maxItems >= 0`, when the store is empty or the item differs in Type or in
Content from the current first item, `Add` returns and the sequence is then the first
`maxItems` entries of the item followed by the old sequence, whatever lies deeper in the
history and whether or not the durable write succeeds; and with `maxItems = 2` the calls
`Add(Text,"a")`, `Add(Text,"b")`, `Add(Text,"b")`, `Add(Text,"c")` on an empty store leave
`[c, b]`. -/
theorem Add_insert_prepends_and_truncates (M : List Item → Option GoString) (h : History)
    (fs : FS) (item : Item) (o : Oracle) (h0 : 0 ≤ h.maxItems)
    (hne : ∀ last rest, h.Items = last :: rest →
      last.Typ ≠ item.Typ ∨ last.Content ≠ item.Content) :
    (∃ r, Add M h fs item o = some r ∧
        GetItems r.h = (item :: h.Items).take h.maxItems.toNat) ∧
    (∀ (p : GoString) (o1 o2 o3 o4 : Oracle) (t1 t2 t3 t4 : Time),
      ∃ h2 fs2 errs,
        runAdds M { Items := [], filePath := p, maxItems := 2 } fs
          [(textOf "a" t1, o1), (textOf "b" t2, o2), (textOf "b" t3, o3), (textOf "c" t4, o4)]
          = some (h2, fs2, errs) ∧
        GetItems h2 = [textOf "c" t4, textOf "b" t2]) := by
  constructor
  · obtain ⟨r, hadd, hr⟩ := Add_items M h fs item o h0
    refine ⟨r, hadd, ?_⟩
    rw [hr]
    simp [GetItems, nextItems, isDuplicate_false_of_differs h.Items item hne]
  · intro p o1 o2 o3 o4 t1 t2 t3 t4
    obtain ⟨fs2, errs, hrun⟩ := runAdds_items M
      [(textOf "a" t1, o1), (textOf "b" t2, o2), (textOf "b" t3, o3), (textOf "c" t4, o4)]
      { Items := [], filePath := p, maxItems := 2 } fs (by show (0 : Int) ≤ 2; decide)
    refine ⟨_, fs2, errs, hrun, ?_⟩
    have hab : lit "a" ≠ lit "b" := by decide
    have hbc : lit "b" ≠ lit "c" := by decide
    simp [GetItems, nextItems, isDuplicate, textOf, hab, hbc]

theorem Add_insert_prepends_and_truncates_witness :
    (0 : Int) ≤ 2 ∧
    (∃ r, Add lineMarshal
          { Items := [textOf "b" 1, textOf "a" 0], filePath := histPath, maxItems := 2 } []
          (textOf "a" 2) allOk = some r ∧
        GetItems r.h = ((textOf "a" 2) :: [textOf "b" 1, textOf "a" 0]).take 2) :=
  ⟨by decide,
   (Add_insert_prepends_and_truncates lineMarshal
      { Items := [textOf "b" 1, textOf "a" 0], filePath := histPath, maxItems := 2 } []
      (textOf "a" 2) allOk (by decide)
      (by
        intro last rest hl
        have hlast : last = textOf "b" 1 := by
          have h1 : [textOf "b" 1, textOf "a" 0] = last :: rest := hl
          exact (List.cons.inj h1).1.symm
        right
        rw [hlast]
        decide)).1⟩

/-- C4: for `maxItems >= 0`, `Add` returns, and it returns a non-nil error exactly when
the item is not a duplicate of the current first item and serialization of the new
sequence fails or the durable write fails; in that case the in-memory change is kept:
`GetItems` then returns the item in front of the old sequence, cut to `maxItems`. -/
theorem Add_error_iff_and_no_rollback (M : List Item → Option GoString) (h : History)
    (fs : FS) (item : Item) (o : Oracle) (h0 : 0 ≤ h.maxItems) :
    ∃ r, Add M h fs item o = some r ∧
      (r.err ≠ none ↔
        (¬ ∃ last rest, h.Items = last :: rest ∧
            last.Typ = item.Typ ∧ last.Content = item.Content) ∧
        (M ((item :: h.Items).take h.maxItems.toNat) = none ∨ o.write ≠ WriteOutcome.ok)) ∧
      (r.err ≠ none → GetItems r.h = (item :: h.Items).take h.maxItems.toNat) := by
  cases hd : isDuplicate h.Items item with
  | true =>
    refine ⟨_, Add_of_dup M h fs item o hd, ?_, ?_⟩
    · have hex := (isDuplicate_iff h.Items item).mp hd
      constructor
      · intro hcontra
        exact absurd rfl hcontra
      · intro hand
        exact absurd hex hand.1
    · intro hcontra
      exact absurd rfl hcontra
  | false =>
    obtain ⟨ops1, hadd⟩ := Add_of_not_dup M h fs item o h0 hd
    refine ⟨_, hadd, ?_, ?_⟩
    · have hnex : ¬ ∃ last rest, h.Items = last :: rest ∧
          last.Typ = item.Typ ∧ last.Content = item.Content := by
        intro hex
        have := (isDuplicate_iff h.Items item).mpr hex
        rw [hd] at this
        exact Bool.false_ne_true this
      have hiff := save_err_eq_none_iff M { h with Items := inserted h item }
        (cleaned h fs item o) o.write
      simp only [ne_eq, hiff, hnex, not_false_eq_true, true_and, inserted]
      tauto
    · intro _
      rfl

theorem Add_error_iff_and_no_rollback_witness :
    (0 : Int) ≤ (storeBA 2).maxItems ∧
    ∃ r, Add lineMarshal (storeBA 2) [] (textOf "c" 2) writeFails = some r ∧
      (r.err ≠ none ↔
        (¬ ∃ last rest, (storeBA 2).Items = last :: rest ∧
            last.Typ = (textOf "c" 2).Typ ∧ last.Content = (textOf "c" 2).Content) ∧
        (lineMarshal (((textOf "c" 2) :: (storeBA 2).Items).take (storeBA 2).maxItems.toNat)
            = none ∨ writeFails.write ≠ WriteOutcome.ok)) ∧
      (r.err ≠ none →
        GetItems r.h = ((textOf "c" 2) :: (storeBA 2).Items).take (storeBA 2).maxItems.toNat) :=
  ⟨by decide,
   Add_error_iff_and_no_rollback lineMarshal (storeBA 2) [] (textOf "c" 2) writeFails
     (by decide)⟩

/-- C5 (as amended): for `maxItems >= 0` and every run of `Add` calls in which individual
durable writes may fail, consider the next `Add` call. If it inserts its item (the item is
not a duplicate of the current first item) and returns nil, the durable file holds the
serialization of exactly the sequence `GetItems` returns at that moment, whatever happened
before. If its item is a duplicate of the current first item, it returns nil without
issuing any file-system call and leaves the sequence and the file system as they were.
Hence, when the run started from a store whose file held the serialization of its
sequence and every earlier call of the run returned nil, a call that returns nil leaves
the file holding the serialization of the sequence `GetItems` returns. -/
theorem Add_success_persists (M : List Item → Option GoString) (h : History) (fs : FS)
    (calls : List (Item × Oracle)) (item : Item) (o : Oracle) (h0 : 0 ≤ h.maxItems) :
    ∃ h1 fs1 errs r,
      runAdds M h fs calls = some (h1, fs1, errs) ∧ Add M h1 fs1 item o = some r ∧
      (isDuplicate h1.Items item = false → r.err = none →
        InSync M r.h r.fs ∧ GetItems r.h = (item :: h1.Items).take h1.maxItems.toNat) ∧
      (isDuplicate h1.Items item = true →
        r.err = none ∧ r.ops = [] ∧ r.h = h1 ∧ r.fs = fs1) ∧
      (InSync M h fs → (∀ e ∈ errs, e = none) → r.err = none → InSync M r.h r.fs) := by
  obtain ⟨h1, fs1, errs, hrun, hmax1⟩ := runAdds_returns M calls h fs h0
  have h01 : 0 ≤ h1.maxItems := by rw [hmax1]; exact h0
  obtain ⟨r, hadd, hr⟩ := Add_items M h1 fs1 item o h01
  refine ⟨h1, fs1, errs, r, hrun, hadd, ?_, ?_, ?_⟩
  · intro hd herr
    obtain ⟨ops1, hadd2⟩ := Add_of_not_dup M _ fs1 item o h01 hd
    rw [hadd2] at hadd
    cases hadd
    exact ⟨save_inSync M _ _ _ herr, rfl⟩
  · intro hd
    rw [Add_of_dup M _ fs1 item o hd] at hadd
    cases hadd
    exact ⟨rfl, rfl, rfl, rfl⟩
  · intro hsync hall herr
    have hsync1 := runAdds_inSync M calls h fs _ fs1 errs h0 hrun hall hsync
    exact Add_inSync_of_ok M _ fs1 item o r h01 hadd herr hsync1

theorem Add_success_persists_witness :
    (0 : Int) ≤ (storeBA 2).maxItems ∧ InSync lineMarshal (storeBA 2) fsBA ∧
    ∃ h1 fs1 r,
      runAdds lineMarshal (storeBA 2) fsBA [(textOf "c" 2, allOk)] = some (h1, fs1, [none]) ∧
      Add lineMarshal h1 fs1 (textOf "d" 3) allOk = some r ∧
      isDuplicate h1.Items (textOf "d" 3) = false ∧ r.err = none ∧
      InSync lineMarshal r.h r.fs ∧ GetItems r.h = [textOf "d" 3, textOf "c" 2] := by
  have hsync : InSync lineMarshal (storeBA 2) fsBA := ⟨docBA, by decide, by decide⟩
  refine ⟨by decide, hsync, ?_⟩
  obtain ⟨h1, fs1, errs, r, hrun, hadd, hins, _, hall⟩ :=
    Add_success_persists lineMarshal (storeBA 2) fsBA [(textOf "c" 2, allOk)]
      (textOf "d" 3) allOk (by decide)
  have hrun0 : runAdds lineMarshal (storeBA 2) fsBA [(textOf "c" 2, allOk)]
      = some ({ storeBA 2 with Items := [textOf "c" 2, textOf "b" 1] },
          [(histPath, lit "text c\ntext b\n")], [none]) := by decide
  rw [hrun0] at hrun
  simp only [Option.some.injEq, Prod.mk.injEq] at hrun
  obtain ⟨hh, hf, he⟩ := hrun
  subst hh hf he
  have hadd0 : Add lineMarshal { storeBA 2 with Items := [textOf "c" 2, textOf "b" 1] }
      [(histPath, lit "text c\ntext b\n")] (textOf "d" 3) allOk
      = some { h := { storeBA 2 with Items := [textOf "d" 3, textOf "c" 2] },
               fs := [(histPath, lit "text d\ntext c\n")],
               ops := [Op.WriteFile histPath (lit "text d\ntext c\n")], err := none } := by
    decide
  rw [hadd0] at hadd
  cases hadd
  have hnd : isDuplicate [textOf "c" 2, textOf "b" 1] (textOf "d" 3) = false := by decide
  exact ⟨_, _, _, hrun0, hadd0, hnd, rfl,
    hall hsync (by decide) rfl, (hins hnd rfl).2⟩

/-- C5 fails as stated: the file holds the serialization of the empty sequence, `Add(a)`
reports a write error, the caller retries `Add(a)`, which is now a duplicate of the first
item and returns nil without writing: the store holds `[a]` and the file still holds the
serialization of the empty sequence. -/
theorem retry_after_write_error_is_not_persisted :
    InSync lineMarshal (emptyStore 2) [(histPath, [])] ∧
    runAdds lineMarshal (emptyStore 2) [(histPath, [])]
        [(textOf "a" 0, writeFails), (textOf "a" 1, allOk)]
      = some ({ emptyStore 2 with Items := [textOf "a" 0] }, [(histPath, [])],
              [some Error.write, none]) ∧
    ¬ InSync lineMarshal { emptyStore 2 with Items := [textOf "a" 0] } [(histPath, [])] := by
  refine ⟨⟨[], rfl, by decide⟩, by decide, ?_⟩
  rintro ⟨data, hm, hr⟩
  have h1 : FS.read [(histPath, [])] histPath = some [] := by decide
  have h2 : lineMarshal [textOf "a" 0] ≠ some [] := by decide
  simp only [emptyStore] at hm hr
  rw [h1] at hr
  rw [← hr] at hm
  exact h2 hm

/-- C1, evaluated at the failing input: with `maxItems = 1`, `NewHistory` loads a file
holding two entries (`b`, `a`) and keeps both; `Add` of an item with the Type and Content
of `b` returns nil at the duplicate check, before the pruning step, so `GetItems` still has
two entries, more than `maxItems`. On the same store an `Add` that inserts does cut the
sequence to one entry. -/
theorem length_bound_fails_on_long_loaded_history :
    NewHistory slashJoin (tableUnmarshal [(docBA, [textOf "b" 1, textOf "a" 0], false)])
        cfgEnv fsBA 1 = Except.ok (storeBA 1) ∧
    Add lineMarshal (storeBA 1) fsBA (textOf "b" 5) allOk
      = some { h := storeBA 1, fs := fsBA, ops := [], err := none } ∧
    ¬ (((GetItems (storeBA 1)).length : Int) ≤ (storeBA 1).maxItems) ∧
    (Add lineMarshal (storeBA 1) fsBA (textOf "c" 5) allOk).map (fun r => GetItems r.h)
      = some [textOf "c" 5] := by
  refine ⟨by rfl, by decide, by decide, by decide⟩

/-- C7: "no two neighbours of the sequence have both the same Type and the same Content"
holds for the empty store; for every `maxItems >= 0` and every item, `Add` returns and the
property holds after it if it held before; hence it holds after every sequence of `Add`
calls on a store that started empty. -/
theorem NoAdjacentDup_is_invariant (maxItems : Int) (h0 : 0 ≤ maxItems) :
    NoAdjacentDup [] ∧
    (∀ (M : List Item → Option GoString) (h : History) (fs : FS) (item : Item) (o : Oracle),
      h.maxItems = maxItems → NoAdjacentDup h.Items →
        ∃ r, Add M h fs item o = some r ∧ NoAdjacentDup (GetItems r.h)) ∧
    (∀ (M : List Item → Option GoString) (p : GoString) (fs : FS)
        (calls : List (Item × Oracle)),
      ∃ h2 fs2 errs,
        runAdds M { Items := [], filePath := p, maxItems := maxItems } fs calls
          = some (h2, fs2, errs) ∧ NoAdjacentDup (GetItems h2)) := by
  refine ⟨List.chain'_nil, ?_, ?_⟩
  · intro M h fs item o hmax hinv
    obtain ⟨r, hadd, hr⟩ := Add_items M h fs item o (by rw [hmax]; exact h0)
    refine ⟨r, hadd, ?_⟩
    rw [hr]
    exact nextItems_noAdjacentDup h.maxItems h.Items item hinv
  · intro M p fs calls
    obtain ⟨fs2, errs, hrun⟩ := runAdds_items M calls
      { Items := [], filePath := p, maxItems := maxItems } fs h0
    refine ⟨_, fs2, errs, hrun, ?_⟩
    exact foldl_nextItems_noAdjacentDup maxItems calls [] List.chain'_nil

theorem NoAdjacentDup_is_invariant_witness :
    (0 : Int) ≤ 2 ∧
    ∃ r, Add lineMarshal (storeBA 2) [] (textOf "a" 2) allOk = some r ∧
      NoAdjacentDup (GetItems r.h) :=
  ⟨by decide,
   (NoAdjacentDup_is_invariant 2 (by decide)).2.1 lineMarshal (storeBA 2) []
     (textOf "a" 2) allOk rfl
     (by
       have hab : lit "b" ≠ lit "a" := by decide
       simp [NoAdjacentDup, storeBA, textOf, hab])⟩

/-- C6, evaluated at the failing input: the store was loaded with two entries under
`maxItems = 1` (a text item, then an older image item whose file exists). `Add` of a new
text item leaves `[b]` in memory, so the image entry is dropped, but the only entry looked
at for cleanup is the one at index `maxItems` (the text item): no removal is issued and
the image file is still there. -/
theorem eviction_keeps_image_file_of_long_history :
    (Add lineMarshal longStore longFS (textOf "b" 2) allOk).map
        (fun r => (GetItems r.h, r.fs.has (lit imgPath), r.ops.filter Op.isRemove, r.err))
      = some ([textOf "b" 2], true, [], none) ∧
    imageOf imgPath 0 ∈ longStore.Items ∧
    (imageOf imgPath 0).Typ = TypeImage ∧
    (imageOf imgPath 0).Content = lit imgPath := by
  refine ⟨by decide, by decide, rfl, rfl⟩

/-- C8 (as amended): when the config directory is known and the application directory
can be created, `NewHistory` reports no error; if the history file is missing or cannot be
read the store is empty; if it can be read the store holds whatever `json.Unmarshal` left
in the initially empty target, whether or not the decoder reported an error (the error is
discarded and nothing is reset), so the store is empty exactly when the decoder stored
nothing. -/
theorem NewHistory_keeps_what_decoder_stored (Join : GoString → GoString → GoString)
    (U : GoString → List Item → List Item × Bool) (env : Env) (fs : FS) (maxItems : Int)
    (configDir : GoString) (hdir : env.UserConfigDir = some configDir)
    (hmk : env.mkdirOk = true) :
    ∃ h, NewHistory Join U env fs maxItems = Except.ok h ∧
      h.maxItems = maxItems ∧
      h.filePath = Join (Join configDir (lit "goclip")) (lit "history.json") ∧
      (fs.read h.filePath = none ∨ env.readOk = false → GetItems h = []) ∧
      (∀ data, env.readOk = true → fs.read h.filePath = some data →
        GetItems h = (U data []).1) := by
  unfold NewHistory
  simp only [hdir, hmk, if_true]
  refine ⟨_, rfl, load_maxItems _ _ _ _, load_filePath _ _ _ _, ?_, ?_⟩
  · intro hmiss
    rw [load_filePath] at hmiss
    apply load_items_of_unreadable
    unfold osReadFile
    rcases hmiss with h1 | h1
    · rw [h1]; simp
    · rw [h1]; simp
  · intro data hread hdata
    rw [load_filePath] at hdata
    apply load_items_of_readable
    unfold osReadFile
    rw [hread]; simpa using hdata

theorem NewHistory_keeps_what_decoder_stored_witness :
    cfgEnv.UserConfigDir = some (lit "/cfg") ∧ cfgEnv.mkdirOk = true ∧
    ∃ h, NewHistory slashJoin (tableUnmarshal []) cfgEnv [] MaxHistoryItems = Except.ok h ∧
      h.maxItems = MaxHistoryItems ∧
      h.filePath = slashJoin (slashJoin (lit "/cfg") (lit "goclip")) (lit "history.json") ∧
      (FS.read [] h.filePath = none ∨ cfgEnv.readOk = false → GetItems h = []) ∧
      (∀ data, cfgEnv.readOk = true → FS.read [] h.filePath = some data →
        GetItems h = (tableUnmarshal [] data []).1) :=
  ⟨rfl, rfl,
   NewHistory_keeps_what_decoder_stored slashJoin (tableUnmarshal []) cfgEnv []
     MaxHistoryItems (lit "/cfg") rfl rfl⟩

/-- C8 fails as stated: the history file holds `[1]`; the decoder reports an error, yet
it has stored one (zero) item in the target, the error is discarded by `load`, and the
store `NewHistory` returns is not empty. -/
theorem decoder_error_does_not_empty_the_store :
    (tableUnmarshal arrayOfNumber (lit "[1]") []).2 = true ∧
    NewHistory slashJoin (tableUnmarshal arrayOfNumber) cfgEnv [(histPath, lit "[1]")]
        MaxHistoryItems
      = Except.ok { Items := [zeroItem], filePath := histPath, maxItems := MaxHistoryItems } ∧
    GetItems { Items := [zeroItem], filePath := histPath, maxItems := MaxHistoryItems } ≠ [] := by
  refine ⟨by decide, by rfl, by decide⟩

/-- C9 (as amended): for every text payload the capture loop accepts, the item it
builds has Type text and the payload as Content, and its Preview contains no newline byte
and has length at most `PreviewLength + 3 = 63`. When the payload has at most
`PreviewLength = 60` bytes the Preview is the payload with every newline replaced by a
space (same length); otherwise it is the first 60 bytes of that flattened text followed
by the three bytes of the truncation marker `...` (63 bytes). -/
theorem textItem_preview_bound (TrimSpace : GoString → GoString) (data : GoString)
    (now : Time) (item : Item) (hacc : textItem TrimSpace data now = some item) :
    item.Typ = TypeText ∧ item.Content = data ∧ item.Timestamp = now ∧
    item.Preview.length ≤ PreviewLength + 3 ∧
    (10 : UInt8) ∉ item.Preview ∧
    (data.length ≤ PreviewLength →
      item.Preview = ReplaceAll data 10 32 ∧ item.Preview.length = data.length) ∧
    (PreviewLength < data.length →
      item.Preview = (ReplaceAll data 10 32).take PreviewLength ++ lit "..." ∧
      item.Preview.length = PreviewLength + 3) := by
  unfold textItem at hacc
  by_cases hblank : TrimSpace data = []
  · simp [hblank] at hacc
  · simp only [hblank, if_false, Option.some.injEq] at hacc
    have hlenR := ReplaceAll_length data 10 32
    have hnl := newline_not_mem_ReplaceAll data
    by_cases hlong : (ReplaceAll data 10 32).length > PreviewLength
    · rw [if_pos hlong] at hacc
      have hprev : item.Preview = (ReplaceAll data 10 32).take PreviewLength ++ lit "..." := by
        rw [← hacc]
      have hlit : (lit "...").length = 3 := by decide
      have hlen : item.Preview.length = PreviewLength + 3 := by
        rw [hprev, List.length_append, List.length_take, hlit]
        omega
      refine ⟨by rw [← hacc], by rw [← hacc], by rw [← hacc], by omega, ?_, fun h => by omega,
        fun _ => ⟨hprev, hlen⟩⟩
      rw [hprev]
      intro hmem
      rcases List.mem_append.mp hmem with h1 | h1
      · exact hnl (List.mem_of_mem_take h1)
      · exact absurd h1 (by decide)
    · rw [if_neg hlong] at hacc
      have hprev : item.Preview = ReplaceAll data 10 32 := by rw [← hacc]
      refine ⟨by rw [← hacc], by rw [← hacc], by rw [← hacc], by rw [hprev]; omega,
        by rw [hprev]; exact hnl, fun _ => ⟨hprev, by rw [hprev]; exact hlenR⟩,
        fun h => by omega⟩

theorem textItem_preview_bound_witness :
    textItem asciiTrimSpace longText 7 = some longTextItem ∧
    PreviewLength < longText.length ∧
    longTextItem.Preview = (ReplaceAll longText 10 32).take PreviewLength ++ lit "..." ∧
    longTextItem.Preview.length = PreviewLength + 3 ∧
    (10 : UInt8) ∉ longTextItem.Preview :=
  ⟨by decide, by decide,
   ((textItem_preview_bound asciiTrimSpace longText 7 longTextItem (by decide)).2.2.2.2.2.2
      (by decide)).1,
   ((textItem_preview_bound asciiTrimSpace longText 7 longTextItem (by decide)).2.2.2.2.2.2
      (by decide)).2,
   (textItem_preview_bound asciiTrimSpace longText 7 longTextItem (by decide)).2.2.2.2.1⟩

/-- C9 fails as stated: a payload of 61 letters `a` is accepted and its Preview, marker
included, is 63 bytes long, more than `PreviewLength = 60`. -/
theorem preview_of_long_text_exceeds_PreviewLength :
    (textItem asciiTrimSpace (List.replicate 61 97) 0).map (fun i => i.Preview.length)
      = some 63 ∧
    ¬ (63 ≤ PreviewLength) := by
  refine ⟨by decide, by decide⟩

/-- C10: for every item list and every output of the presentation program, if `ShowMenu`
returns `(index, true)` then `0 <= index < len(items)`; an output that `Sscanf` cannot
parse, or that denotes a negative index or one that is `len(items)` or more, yields
`(0, false)`; and `runUI` never panics: its indexing `items[index]` is in range. -/
theorem ShowMenu_index_in_range (TrimSpace : GoString → GoString)
    (Sscanf : GoString → Int × Bool) (run : List GoString → GoString → Option GoString)
    (u : UIHandler) (items : List Item) :
    (∀ index, ShowMenu TrimSpace Sscanf run u items = (index, true) →
      0 ≤ index ∧ index < (items.length : Int)) ∧
    (∀ output, run (rofiArgs u) (rofiInput items) = some output →
      ((Sscanf (TrimSpace output)).2 = true ∨ (Sscanf (TrimSpace output)).1 < 0 ∨
        (items.length : Int) ≤ (Sscanf (TrimSpace output)).1) →
      ShowMenu TrimSpace Sscanf run u items = (0, false)) ∧
    (∀ h : History, ∃ res, runUI TrimSpace Sscanf run u h = some res) := by
  refine ⟨fun index hsel => ShowMenu_in_range TrimSpace Sscanf run u items index hsel, ?_, ?_⟩
  · intro output hrun hbad
    by_cases hne : items.length = 0
    · simp [ShowMenu, hne]
    · rw [ShowMenu_eq_of_output TrimSpace Sscanf run u items output hne hrun]
      have hcond : ((Sscanf (TrimSpace output)).2
          || decide ((Sscanf (TrimSpace output)).1 < 0)
          || decide ((Sscanf (TrimSpace output)).1 ≥ (items.length : Int))) = true := by
        simp only [Bool.or_eq_true, decide_eq_true_eq, ge_iff_le]
        tauto
      rw [if_pos hcond]
  · intro h
    unfold runUI
    by_cases hne : (GetItems h).length = 0
    · exact ⟨none, by simp [hne]⟩
    · cases hsel : (ShowMenu TrimSpace Sscanf run u (GetItems h)).2 with
      | false => exact ⟨none, by simp [hne, hsel]⟩
      | true =>
        have hpair : ShowMenu TrimSpace Sscanf run u (GetItems h)
            = ((ShowMenu TrimSpace Sscanf run u (GetItems h)).1, true) := by
          rw [← hsel]
        obtain ⟨hlo, hhi⟩ := ShowMenu_in_range TrimSpace Sscanf run u (GetItems h) _ hpair
        have hlt : (ShowMenu TrimSpace Sscanf run u (GetItems h)).1.toNat
            < (GetItems h).length := by omega
        have hget : (GetItems h).get? (ShowMenu TrimSpace Sscanf run u (GetItems h)).1.toNat
            = some ((GetItems h).get ⟨_, hlt⟩) := List.get?_eq_get hlt
        refine ⟨some ((GetItems h).get ⟨_, hlt⟩), ?_⟩
        simp only [hne, if_false, hsel, Bool.not_true, Bool.false_eq_true, not_lt.mpr hlo, hget]

theorem ShowMenu_index_in_range_witness :
    ShowMenu asciiTrimSpace digitSscanf (printsAlways "1\n") { ThemePath := [] }
        (storeBA 2).Items = (1, true) ∧
    ((0 : Int) ≤ 1 ∧ (1 : Int) < ((storeBA 2).Items.length : Int)) :=
  ⟨by decide,
   (ShowMenu_index_in_range asciiTrimSpace digitSscanf (printsAlways "1\n")
      { ThemePath := [] } (storeBA 2).Items).1 1 (by decide)⟩

end Goclip
